import Mathlib

/-!
Verification of the marker/adjacency core of the Whitehall Mystery map
helper (src/image_tools/wm_helper/wm_helper.py).

The Python source is shallowly embedded: strings are Lean `String`s over the
ASCII fragment actually used by the tool (ids are consonant letters, digits,
signs and whitespace), Python `float` coordinates are modelled as exact
rationals `ℚ`, the Python `set` of connections is a `Finset` when set
semantics matter and a `List` when the (unspecified) iteration order of the
set matters, and code that can raise an exception returns `Option`.
-/

namespace WMHelper

/-! ### Python string primitives (ASCII model)

`pyStrip` models `str.strip()`, `pyUpper` models `str.upper()`,
`pyParseInt` models `int(text)` on strings (whitespace stripping, an
optional sign, and digits optionally separated by single underscores), and
`pyIntStr` models `str(n)` for an `int` `n`.  Non-ASCII digits, whitespace
and letters are outside the model. -/

def pyWhitespaceChars : List Char := [' ', '\t', '\n', '\r', Char.ofNat 11, Char.ofNat 12]

def isPySpace (c : Char) : Bool := pyWhitespaceChars.contains c

def pyStripChars (cs : List Char) : List Char :=
  ((cs.dropWhile isPySpace).reverse.dropWhile isPySpace).reverse

def pyStrip (s : String) : String := ⟨pyStripChars s.data⟩

def pyUpperChar (c : Char) : Char :=
  if 'a' ≤ c ∧ c ≤ 'z' then Char.ofNat (c.toNat - 32) else c

def pyUpper (s : String) : String := ⟨s.data.map pyUpperChar⟩

/-- Lexicographic strict order on character lists by code point — Python's
string `<`.  (A Boolean function so that concrete comparisons compute.) -/
def charsLt : List Char → List Char → Bool
  | [], [] => false
  | [], _ :: _ => true
  | _ :: _, [] => false
  | a :: as, b :: bs => if a < b then true else if b < a then false else charsLt as bs

/-- Python string `<`. -/
def pyStrLt (s t : String) : Bool := charsLt s.data t.data

/-- Python string `<=` (the total order's reflexive closure). -/
def pyStrLe (s t : String) : Bool := !(charsLt t.data s.data)

/-- Each adjacent pair of the list is strictly increasing (a computable
check used to certify sortedness of concrete lists). -/
def chainLtB : List String → Bool
  | [] => true
  | [_] => true
  | a :: b :: rest => pyStrLt a b && chainLtB (b :: rest)

/-- `("_"? digit)*` tail of Python's integer-literal grammar: after the first
digit, each further digit may be preceded by a single underscore. -/
def pyIntDigitsRest : List Char → Bool
  | [] => true
  | c :: rest =>
    if c = '_' then
      match rest with
      | [] => false
      | c2 :: rest2 => c2.isDigit && pyIntDigitsRest rest2
    else c.isDigit && pyIntDigitsRest rest

/-- Nonempty digit sequence with optional single underscores between digits. -/
def pyIntDigits : List Char → Bool
  | [] => false
  | c :: rest => c.isDigit && pyIntDigitsRest rest

/-- Decimal value of a digit sequence, ignoring underscores. -/
def digitsVal (cs : List Char) : Nat :=
  cs.foldl (fun acc c => if c = '_' then acc else acc * 10 + (c.toNat - 48)) 0

/-- Model of Python `int(text)` for `text : str`: strip whitespace, optional
sign, digits with optional single underscores in between; `none` models the
`ValueError`. -/
def pyParseInt (s : String) : Option Int :=
  let cs := pyStripChars s.data
  match cs with
  | [] => none
  | c :: rest =>
    if c = '+' then
      if pyIntDigits rest then some ((digitsVal rest : Nat) : Int) else none
    else if c = '-' then
      if pyIntDigits rest then some (-((digitsVal rest : Nat) : Int)) else none
    else
      if pyIntDigits (c :: rest) then some ((digitsVal (c :: rest) : Nat) : Int) else none

/-- Little-endian decimal digits of a natural number, with explicit fuel so
the kernel can evaluate it (`fuel > n` always suffices). -/
def natDigitsRevGo : Nat → Nat → List Char
  | _, 0 => []
  | n, fuel + 1 =>
    if n < 10 then [Char.ofNat (48 + n)]
    else Char.ofNat (48 + n % 10) :: natDigitsRevGo (n / 10) fuel

/-- Little-endian decimal digits of a natural number. -/
def natDigitsRev (n : Nat) : List Char := natDigitsRevGo n (n + 1)

/-- Model of Python `str(n)` for an `int` `n` (decimal, `-` sign). -/
def pyIntStr (n : Int) : String :=
  if n < 0 then ⟨'-' :: (natDigitsRev (-n).toNat).reverse⟩
  else ⟨(natDigitsRev n.toNat).reverse⟩

/-! ### The consonant alphabet and token classification
(wm_helper.py lines 31-32, 633-656) -/

/-- `SQUARE_VOWELS = set("AEIOU")`. -/
def SQUARE_VOWELS : List Char := ['A', 'E', 'I', 'O', 'U']

/-- `SQUARE_LETTERS`: the uppercase alphabet A..Z minus the vowels. -/
def SQUARE_LETTERS : List Char :=
  ((List.range 26).map (fun code => Char.ofNat (65 + code))).filter
    (fun c => !(SQUARE_VOWELS.contains c))

/-- `_is_square_token`: exactly two characters, all in `SQUARE_LETTERS`. -/
def is_square_token (token : String) : Bool :=
  token.data.length == 2 && token.data.all (fun ch => decide (ch ∈ SQUARE_LETTERS))

/-- `_is_circle_token`: `int(token)` succeeds. -/
def is_circle_token (token : String) : Bool :=
  (pyParseInt token).isSome

/-- `_normalize_node_token`: strip, try the square form (uppercased), then
the integer form; `None` otherwise. -/
def normalize_node_token (raw_value : String) : Option String :=
  let text := pyStrip raw_value
  if text = "" then none
  else
    let candidate_square := pyUpper text
    if is_square_token candidate_square then some candidate_square
    else
      match pyParseInt text with
      | some n => some (pyIntStr n)
      | none => none

/-- `_normalized_connection_pair`: normalize both sides, reject `None`s,
equal tokens, invalid tokens and circle-circle pairs, and return the pair
sorted lexicographically (Python `tuple(sorted(...))`). -/
def normalized_connection_pair (a b : String) : Option (String × String) :=
  match normalize_node_token a, normalize_node_token b with
  | some token_a, some token_b =>
    if token_a = token_b then none
    else
      let a_is_square := is_square_token token_a
      let b_is_square := is_square_token token_b
      let a_is_circle := is_circle_token token_a
      let b_is_circle := is_circle_token token_b
      if !(a_is_square || a_is_circle) then none
      else if !(b_is_square || b_is_circle) then none
      else if a_is_circle && b_is_circle then none
      else if pyStrLe token_a token_b then some (token_a, token_b)
      else some (token_b, token_a)
  | _, _ => none

/-! ### The marker data model (wm_helper.py lines 45-75, 522-553, 620-631) -/

/-- A marker id is a Python `int | str`. -/
abbrev MarkerId := Int ⊕ String

/-- Python `str(id)` on an `int | str` value. -/
def idStr : MarkerId → String
  | .inl n => pyIntStr n
  | .inr s => s

/-- Python `int(id)` on an `int | str` value; `none` models the exception. -/
def idInt : MarkerId → Option Int
  | .inl n => some n
  | .inr s => pyParseInt s

/-- The `Marker` dataclass.  Coordinates are exact rationals standing in for
the source's floats. -/
structure Marker where
  kind : String
  id : MarkerId
  x : ℚ
  y : ℚ
  adjacent_squares : List String := []
  adjacent_circles : List Int := []
deriving DecidableEq, Repr

/-- Recursion core of `_normalize_adjacent_squares`: strip+uppercase each
entry, keep the two-consonant ones, drop duplicates (first occurrence wins).
`seen` is the already-seen set. -/
def normSquaresGo (seen : List String) : List String → List String
  | [] => []
  | raw :: rest =>
    let candidate := pyUpper (pyStrip raw)
    if candidate.data.length ≠ 2 ∨ ¬ (∀ ch ∈ candidate.data, ch ∈ SQUARE_LETTERS) then
      normSquaresGo seen rest
    else if candidate ∈ seen then normSquaresGo seen rest
    else candidate :: normSquaresGo (candidate :: seen) rest

/-- `_normalize_adjacent_squares` on a list of strings (the only shape the
core ever feeds it; non-list input is normalized to `[]` by the source). -/
def normalize_adjacent_squares (raw_values : List String) : List String :=
  normSquaresGo [] raw_values

/-- Recursion core of `_normalize_adjacent_circles` on a list of ints
(`int(raw)` is the identity there); drops duplicates, keeps order. -/
def normCirclesGo (seen : List Int) : List Int → List Int
  | [] => []
  | raw :: rest =>
    if raw ∈ seen then normCirclesGo seen rest
    else raw :: normCirclesGo (raw :: seen) rest

/-- `_normalize_adjacent_circles` on a list of ints. -/
def normalize_adjacent_circles (raw_values : List Int) : List Int :=
  normCirclesGo [] raw_values

/-- `_marker_token`: `str(id).upper()` for squares, `str(int(id))` for
circles; `none` models the `ValueError`/`TypeError` a bad circle id raises
(`_try_marker_token` catches exactly these). -/
def marker_token (m : Marker) : Option String :=
  if m.kind = "square" then some (pyUpper (idStr m.id))
  else (idInt m.id).map pyIntStr

/-! ### The adjacency synchronizer (wm_helper.py lines 728-765)

`_sync_marker_adjacency_from_connections` walks the connection set once and
rebuilds every marker's adjacency caches from scratch.  The Python `set` is
modelled as a list in its (unspecified) iteration order.  The imperative
token-to-markers dictionaries are modelled pointwise: a marker with token
`t` receives exactly the appends the dictionary entry for `t` receives, in
connection order.  An exception anywhere (a circle marker whose id cannot
be parsed, or `int(circle_token)` failing while some square matches) aborts
the whole pass, hence `Option`. -/

/-- Appends made to `adjacent_squares` of a marker in the squares list with
token `t`: both directions of every square-square connection touching `t`. -/
def square_adj_squares (t : String) : List (String × String) → List String
  | [] => []
  | c :: rest =>
    (if is_square_token c.1 && is_square_token c.2 then
      (if c.1 = t then [c.2] else []) ++ (if c.2 = t then [c.1] else [])
    else []) ++ square_adj_squares t rest

/-- Appends made to `adjacent_circles` of a marker in the squares list with
token `t`, by the non-square-square connections; `int(circle_token)` can
raise, hence `Option`. -/
def square_adj_circles (t : String) : List (String × String) → Option (List Int)
  | [] => some []
  | c :: rest =>
    if is_square_token c.1 && is_square_token c.2 then square_adj_circles t rest
    else
      let square_token := if is_square_token c.1 then c.1 else c.2
      let circle_token := if is_square_token c.1 then c.2 else c.1
      if square_token = t then
        match pyParseInt circle_token with
        | some n => (square_adj_circles t rest).map (fun l => n :: l)
        | none => none
      else square_adj_circles t rest

/-- Appends made to `adjacent_squares` of a marker in the circles list with
token `t`, by the non-square-square connections. -/
def circle_adj_squares (t : String) : List (String × String) → List String
  | [] => []
  | c :: rest =>
    (if is_square_token c.1 && is_square_token c.2 then []
    else
      let square_token := if is_square_token c.1 then c.1 else c.2
      let circle_token := if is_square_token c.1 then c.2 else c.1
      if circle_token = t then [square_token] else []) ++ circle_adj_squares t rest

/-- New value of a marker of the circles list after the sync pass. -/
def sync_circle (conns : List (String × String)) (m : Marker) : Option Marker :=
  (marker_token m).map fun t =>
    { m with adjacent_squares := normalize_adjacent_squares (circle_adj_squares t conns),
             adjacent_circles := [] }

/-- New value of a marker of the squares list after the sync pass. -/
def sync_square (conns : List (String × String)) (m : Marker) : Option Marker :=
  (marker_token m).bind fun t =>
    (square_adj_circles t conns).map fun cis =>
      { m with adjacent_squares := normalize_adjacent_squares (square_adj_squares t conns),
               adjacent_circles := normalize_adjacent_circles cis }

/-- `Option`-valued map: `none` as soon as one element fails. -/
def mapOpt (f : α → Option β) : List α → Option (List β)
  | [] => some []
  | a :: rest =>
    match f a with
    | some b => (mapOpt f rest).map (fun l => b :: l)
    | none => none

/-- `_sync_marker_adjacency_from_connections`, as a function from the two
marker lists and the connection set (in iteration order) to the updated
marker lists. -/
def sync_marker_adjacency_from_connections (circles squares : List Marker)
    (connections : List (String × String)) : Option (List Marker × List Marker) :=
  (mapOpt (sync_circle connections) circles).bind fun cs =>
    (mapOpt (sync_square connections) squares).map fun ss => (cs, ss)

/-! ### Connection-set operations (wm_helper.py lines 676-726, 767-776)

The Python `set` of canonical pairs is a `Finset (String × String)` here. -/

/-- `_connection_pairs_for_marker`: the connections implied by a marker's
own adjacency fields (`set()` when its token is unavailable). -/
def connection_pairs_for_marker (m : Marker) : Finset (String × String) :=
  match marker_token m with
  | none => ∅
  | some t =>
    ((normalize_adjacent_squares m.adjacent_squares).filterMap
        (fun square_id => normalized_connection_pair t square_id)
      ++ (if m.kind = "square" then
            (normalize_adjacent_circles m.adjacent_circles).filterMap
              (fun circle_id => normalized_connection_pair t (pyIntStr circle_id))
          else [])).toFinset

/-- `_build_connections_from_marker_adjacency`: union over both lists. -/
def build_connections_from_marker_adjacency (circles squares : List Marker) :
    Finset (String × String) :=
  (circles ++ squares).foldl (fun acc m => acc ∪ connection_pairs_for_marker m) ∅

/-- One line of `_load_connections`: a line must be a two-element array
whose endpoints normalize into a pair; anything else is skipped. -/
def load_connections_step (acc : Finset (String × String)) (line : List String) :
    Finset (String × String) :=
  match line with
  | [a, b] =>
    match normalized_connection_pair a b with
    | some pair => insert pair acc
    | none => acc
  | _ => acc

/-- `_load_connections` on the already-split JSON lines of the file. -/
def load_connections_list (lines : List (List String)) : Finset (String × String) :=
  lines.foldl load_connections_step ∅

/-- `_remove_marker_connections`: drop every pair containing the marker's
token (`marker_token` can raise, hence `Option`). -/
def remove_marker_connections (m : Marker) (connections : Finset (String × String)) :
    Option (Finset (String × String)) :=
  (marker_token m).map fun t =>
    connections.filter (fun pair => t ≠ pair.1 ∧ t ≠ pair.2)

/-- `_add_marker_connections`: `update` with the marker's implied pairs. -/
def add_marker_connections (m : Marker) (connections : Finset (String × String)) :
    Finset (String × String) :=
  connections ∪ connection_pairs_for_marker m

/-- The connection sets the application can ever hold: built at load from
the connections file, or by legacy migration from marker adjacency, then
mutated by add/remove (a replace is a remove followed by an add). -/
inductive ReachableConns : Finset (String × String) → Prop
  | load (lines : List (List String)) : ReachableConns (load_connections_list lines)
  | legacy (circles squares : List Marker) :
      ReachableConns (build_connections_from_marker_adjacency circles squares)
  | add (s : Finset (String × String)) (m : Marker) (h : ReachableConns s) :
      ReachableConns (add_marker_connections m s)
  | remove (s : Finset (String × String)) (t : String) (h : ReachableConns s) :
      ReachableConns (s.filter (fun pair => t ≠ pair.1 ∧ t ≠ pair.2))

/-! ### Persistence (wm_helper.py lines 54-75, 555-618, 697-702, 782-792)

A written line is modelled as the structured record `json.dumps` receives;
`none` in an adjacency field means the key is absent from the JSON object.
`json.dumps`/`json.loads` round-tripping of such a record is the identity
and is elided. -/

/-- One line of a `circles`/`squares` file. -/
structure SavedRecord where
  id : MarkerId
  x : ℚ
  y : ℚ
  adjacentSquares : Option (List String)
  adjacentCircles : Option (List Int)
deriving DecidableEq, Repr

/-- Python `round(q)` (banker's rounding, to an int). -/
def pyRound (q : ℚ) : ℤ :=
  let f := ⌊q⌋
  let frac := q - f
  if frac < 1 / 2 then f
  else if 1 / 2 < frac then f + 1
  else if Even f then f else f + 1

/-- `Marker._json_number`: integral values (within `math.isclose`'s
`abs_tol=1e-9`, `rel_tol=1e-9`) become ints, others are rounded to 3
decimal digits. -/
def json_number (value : ℚ) : ℚ :=
  if |value - (pyRound value : ℚ)| ≤
      max (1 / 1000000000 * max |value| |(pyRound value : ℚ)|) (1 / 1000000000)
  then (pyRound value : ℚ)
  else (pyRound (value * 1000) : ℚ) / 1000

/-- `Marker.to_record`: only `id`, `x`, `y` are emitted. -/
def Marker.to_record (m : Marker) : SavedRecord :=
  { id := m.id, x := json_number m.x, y := json_number m.y,
    adjacentSquares := none, adjacentCircles := none }

/-- `_write_jsonl`: one record per marker, in list order. -/
def write_jsonl (markers : List Marker) : List SavedRecord :=
  markers.map Marker.to_record

/-- The per-line body of `_load_markers`: build the marker from the parsed
record, then coerce the id (`int` for circles — which can fail and skips
the line — uppercase string for squares) and force circle
`adjacent_circles` empty. -/
def marker_from_record (kind : String) (record : SavedRecord) : Option Marker :=
  let marker : Marker :=
    { kind := kind, id := record.id, x := record.x, y := record.y,
      adjacent_squares := normalize_adjacent_squares (record.adjacentSquares.getD []),
      adjacent_circles := normalize_adjacent_circles (record.adjacentCircles.getD []) }
  if kind = "circle" then
    (idInt marker.id).map fun n => { marker with id := .inl n, adjacent_circles := [] }
  else some { marker with id := .inr (pyUpper (idStr marker.id)) }

/-- `_load_markers` on the parsed lines of a file: unparseable lines are
skipped. -/
def load_markers (records : List SavedRecord) (kind : String) : List Marker :=
  records.filterMap (marker_from_record kind)

/-- Python's lexicographic order on 2-tuples of strings, as used by
`sorted(self.connections)`. -/
def pairLe (p q : String × String) : Prop :=
  p.1 < q.1 ∨ (p.1 = q.1 ∧ p.2 ≤ q.2)

instance : DecidableRel pairLe := fun p q =>
  inferInstanceAs (Decidable (p.1 < q.1 ∨ (p.1 = q.1 ∧ p.2 ≤ q.2)))

instance : IsTrans (String × String) pairLe where
  trans p q r hpq hqr := by
    rcases hpq with h1 | ⟨h1, h2⟩ <;> rcases hqr with h3 | ⟨h3, h4⟩
    · exact Or.inl (lt_trans h1 h3)
    · exact Or.inl (h3 ▸ h1)
    · exact Or.inl (h1 ▸ h3)
    · exact Or.inr ⟨h1.trans h3, le_trans h2 h4⟩

instance : IsAntisymm (String × String) pairLe where
  antisymm p q hpq hqp := by
    rcases hpq with h1 | ⟨h1, h2⟩ <;> rcases hqp with h3 | ⟨h3, h4⟩
    · exact absurd (lt_trans h1 h3) (lt_irrefl _)
    · exact absurd h1 (h3 ▸ lt_irrefl _)
    · exact absurd h3 (h1 ▸ lt_irrefl _)
    · exact Prod.ext h1 (le_antisymm h2 h4)

instance : IsTotal (String × String) pairLe where
  total p q := by
    rcases lt_trichotomy p.1 q.1 with h | h | h
    · exact Or.inl (Or.inl h)
    · rcases le_total p.2 q.2 with h2 | h2
      · exact Or.inl (Or.inr ⟨h, h2⟩)
      · exact Or.inr (Or.inr ⟨h.symm, h2⟩)
    · exact Or.inr (Or.inl h)

/-- `_write_connections`: the pairs in sorted order, one two-element array
per line. -/
def write_connections (connections : Finset (String × String)) : List (List String) :=
  (connections.sort pairLe).map (fun pair => [pair.1, pair.2])

/-! ### Spatial queries (wm_helper.py lines 1272-1320, 1488-1512) -/

/-- Squared Euclidean distance from a marker to a query point. -/
def dist_sq (m : Marker) (x y : ℚ) : ℚ :=
  (m.x - x) * (m.x - x) + (m.y - y) * (m.y - y)

/-- `_find_nearest_square`: linear scan, strictly-closer updates, optional
excluded index. -/
def find_nearest_square (squares : List Marker) (x y : ℚ)
    (exclude_index : Option Nat) : Option Marker :=
  (squares.enum.foldl
    (fun acc p =>
      if exclude_index = some p.1 then acc
      else
        match acc with
        | none => some (p.2, dist_sq p.2 x y)
        | some best => if dist_sq p.2 x y < best.2 then some (p.2, dist_sq p.2 x y) else acc)
    none).map Prod.fst

/-- `_find_nearest_circle`. -/
def find_nearest_circle (circles : List Marker) (x y : ℚ) : Option Marker :=
  (circles.foldl
    (fun acc m =>
      match acc with
      | none => some (m, dist_sq m x y)
      | some best => if dist_sq m x y < best.2 then some (m, dist_sq m x y) else acc)
    none).map Prod.fst

/-- The square index excluded by `_find_nearest_adjacent_target_for_square`,
from the active edit-preview target. -/
def preview_exclude_index (active_edit_preview_target : Option (String × Nat)) : Option Nat :=
  match active_edit_preview_target with
  | some kt => if kt.1 = "square" then some kt.2 else none
  | none => none

/-- `_find_nearest_adjacent_target_for_square`: the nearer of the nearest
square and nearest circle, ties going to the square. -/
def find_nearest_adjacent_target_for_square (circles squares : List Marker)
    (active_edit_preview_target : Option (String × Nat)) (x y : ℚ) :
    Option (String × Marker) :=
  match find_nearest_square squares x y (preview_exclude_index active_edit_preview_target),
      find_nearest_circle circles x y with
  | none, none => none
  | none, some c => some ("circle", c)
  | some s, none => some ("square", s)
  | some s, some c =>
    if dist_sq s x y ≤ dist_sq c x y then some ("square", s) else some ("circle", c)

/-- The candidate list of `_find_nearest_marker`: circles first, then
squares, each with its kind and index. -/
def marker_candidates (circles squares : List Marker) : List (String × Nat × Marker) :=
  circles.enum.map (fun p => ("circle", p.1, p.2))
    ++ squares.enum.map (fun p => ("square", p.1, p.2))

/-- Python `min(candidates, key=...)`: the first element attaining the
minimal key. -/
def min_by_key (key : α → ℚ) : List α → Option α
  | [] => none
  | a :: rest => some (rest.foldl (fun best c => if key c < key best then c else best) a)

/-- `_find_nearest_marker`. -/
def find_nearest_marker (circles squares : List Marker) (x y : ℚ) :
    Option (String × Nat × Marker) :=
  min_by_key (fun c => dist_sq c.2.2 x y) (marker_candidates circles squares)

/-- `_next_square_id`'s candidate space, in loop order: first letter outer,
second letter inner. -/
def all_square_codes : List String :=
  SQUARE_LETTERS.foldr (fun first acc =>
    (SQUARE_LETTERS.map fun second => (⟨[first, second]⟩ : String)) ++ acc) []

/-- `_next_square_id` on the used-id set (as a list with set membership):
scan the candidates, skip those below `"BB"`, return the first unused. -/
def next_square_id (used : List String) : Option String :=
  all_square_codes.find? (fun candidate =>
    !(pyStrLt candidate "BB") && !(decide (candidate ∈ used)))

/-- `_next_square_id` as called: the used set comes from the square list's
uppercased ids. -/
def next_square_id_of_squares (squares : List Marker) : Option String :=
  next_square_id (squares.map fun m => pyUpper (idStr m.id))

/-- The used-id set of the C7 example scenario: every code from "BB"
through "BZ" except "BF". -/
def usedBF : List String :=
  ["BB", "BC", "BD", "BG", "BH", "BJ", "BK", "BL", "BM", "BN", "BP",
   "BQ", "BR", "BS", "BT", "BV", "BW", "BX", "BY", "BZ"]

/-! ### Concrete markers used by the example scenarios -/

def circleOne : Marker := { kind := "circle", id := .inl 1, x := 10, y := 10 }

def squareBB : Marker := { kind := "square", id := .inr "BB", x := 0, y := 0 }

def squareBC : Marker := { kind := "square", id := .inr "BC", x := 3, y := 0 }

def circleOneSynced : Marker := { circleOne with adjacent_squares := ["BB"] }

def squareBBSynced : Marker := { squareBB with adjacent_circles := [1] }

/-! ## Theorems -/

attribute [local semireducible] Rat.mul Rat.inv Rat.add Rat.sub Rat.ofScientific

/-! ### The string order of the embedding agrees with Lean's -/

theorem charsLt_iff : ∀ as bs : List Char, charsLt as bs = true ↔ as < bs := by
  intro as
  induction as with
  | nil =>
    intro bs
    cases bs with
    | nil => simp only [charsLt, Bool.false_eq_true, false_iff]; intro h; cases h
    | cons b bs => simp only [charsLt, true_iff]; exact List.Lex.nil
  | cons a as ih =>
    intro bs
    cases bs with
    | nil => simp only [charsLt, Bool.false_eq_true, false_iff]; intro h; cases h
    | cons b bs =>
      simp only [charsLt]
      split_ifs with h1 h2
      · simp only [true_iff]; exact List.Lex.rel h1
      · simp only [Bool.false_eq_true, false_iff]
        intro h
        cases h with
        | rel h' => exact h1 h'
        | cons h' => exact absurd h2 (lt_irrefl a)
      · have hab : a = b := le_antisymm (not_lt.mp h2) (not_lt.mp h1)
        subst hab
        rw [ih bs]
        constructor
        · exact fun h => List.Lex.cons h
        · intro h
          cases h with
          | rel h' => exact absurd h' (lt_irrefl a)
          | cons h' => exact h'

theorem pyStrLt_iff (s t : String) : pyStrLt s t = true ↔ s < t := by
  rw [String.lt_iff_toList_lt]
  exact charsLt_iff s.data t.data

theorem pyStrLe_iff (s t : String) : pyStrLe s t = true ↔ s ≤ t := by
  rw [pyStrLe, Bool.not_eq_true', ← Bool.not_eq_true]
  rw [show (charsLt t.data s.data = true) = (t < s) from propext (pyStrLt_iff t s)]
  exact not_lt

/-! ### Normalizer output is duplicate-free -/

theorem normSquaresGo_spec (raws : List String) : ∀ seen : List String,
    (∀ x ∈ normSquaresGo seen raws, x ∉ seen) ∧ (normSquaresGo seen raws).Nodup := by
  induction raws with
  | nil => intro seen; simp [normSquaresGo]
  | cons raw rest ih =>
    intro seen
    simp only [normSquaresGo]
    split
    · exact ih seen
    · split
      · exact ih seen
      · rename_i hshape hseen
        constructor
        · intro x hx
          rcases List.mem_cons.mp hx with rfl | hx
          · exact hseen
          · have hns := (ih (pyUpper (pyStrip raw) :: seen)).1 x hx
            intro hxs; exact hns (List.mem_cons_of_mem _ hxs)
        · refine List.nodup_cons.mpr ⟨?_, (ih _).2⟩
          intro hx
          exact (ih _).1 _ hx (List.mem_cons_self _ _)

theorem normalize_adjacent_squares_nodup (raws : List String) :
    (normalize_adjacent_squares raws).Nodup :=
  (normSquaresGo_spec raws []).2

theorem normCirclesGo_spec (raws : List Int) : ∀ seen : List Int,
    (∀ x ∈ normCirclesGo seen raws, x ∉ seen) ∧ (normCirclesGo seen raws).Nodup := by
  induction raws with
  | nil => intro seen; simp [normCirclesGo]
  | cons raw rest ih =>
    intro seen
    simp only [normCirclesGo]
    split
    · exact ih seen
    · rename_i hseen
      constructor
      · intro x hx
        rcases List.mem_cons.mp hx with rfl | hx
        · exact hseen
        · have hns := (ih (raw :: seen)).1 x hx
          intro hxs; exact hns (List.mem_cons_of_mem _ hxs)
      · refine List.nodup_cons.mpr ⟨?_, (ih _).2⟩
        intro hx
        exact (ih _).1 _ hx (List.mem_cons_self _ _)

theorem normalize_adjacent_circles_nodup (raws : List Int) :
    (normalize_adjacent_circles raws).Nodup :=
  (normCirclesGo_spec raws []).2

theorem mapOpt_mem {α β : Type} {f : α → Option β} :
    ∀ {l : List α} {l' : List β}, mapOpt f l = some l' → ∀ y ∈ l', ∃ x ∈ l, f x = some y := by
  intro l
  induction l with
  | nil => intro l' h; simp [mapOpt] at h; subst h; simp
  | cons a rest ih =>
    intro l' h y hy
    simp only [mapOpt] at h
    cases hfa : f a with
    | none => rw [hfa] at h; simp at h
    | some b =>
      rw [hfa] at h
      cases hrest : mapOpt f rest with
      | none => rw [hrest] at h; simp at h
      | some bs =>
        rw [hrest] at h; simp at h; subst h
        rcases List.mem_cons.mp hy with rfl | hy
        · exact ⟨a, List.mem_cons_self _ _, hfa⟩
        · obtain ⟨x, hx, hfx⟩ := ih hrest y hy
          exact ⟨x, List.mem_cons_of_mem _ hx, hfx⟩

theorem sync_circle_shape {conns : List (String × String)} {m m' : Marker}
    (h : sync_circle conns m = some m') :
    m'.adjacent_squares.Nodup ∧ m'.adjacent_circles = [] := by
  simp only [sync_circle, Option.map_eq_some'] at h
  obtain ⟨t, ht, rfl⟩ := h
  exact ⟨normalize_adjacent_squares_nodup _, rfl⟩

theorem sync_square_shape {conns : List (String × String)} {m m' : Marker}
    (h : sync_square conns m = some m') :
    m'.adjacent_squares.Nodup ∧ m'.adjacent_circles.Nodup := by
  simp only [sync_square, Option.bind_eq_some, Option.map_eq_some'] at h
  obtain ⟨t, ht, cis, hcis, rfl⟩ := h
  exact ⟨normalize_adjacent_squares_nodup _, normalize_adjacent_circles_nodup _⟩

/-- C1 (amended): after `_sync_marker_adjacency_from_connections` completes
on any marker lists and any connection set, every marker of the circles list
has a duplicate-free `adjacentSquares` cache and an empty `adjacentCircles`
cache, and every marker of the squares list has duplicate-free
`adjacentSquares` and `adjacentCircles` caches.  (The sortedness asserted by
the original claim does not hold — see the counterexample.) -/
theorem C1_sync_caches_dedup (circles squares : List Marker)
    (conns : List (String × String)) (cs ss : List Marker)
    (h : sync_marker_adjacency_from_connections circles squares conns = some (cs, ss)) :
    (∀ c ∈ cs, c.adjacent_squares.Nodup ∧ c.adjacent_circles = []) ∧
    (∀ s ∈ ss, s.adjacent_squares.Nodup ∧ s.adjacent_circles.Nodup) := by
  rw [sync_marker_adjacency_from_connections] at h
  cases hc : mapOpt (sync_circle conns) circles with
  | none => rw [hc] at h; simp at h
  | some cs' =>
    rw [hc] at h
    cases hs : mapOpt (sync_square conns) squares with
    | none => rw [hs] at h; simp at h
    | some ss' =>
      rw [hs] at h
      simp only [Option.bind_some, Option.map_some', Option.some_inj, Prod.mk.injEq] at h
      obtain ⟨rfl, rfl⟩ := h
      constructor
      · intro c hcm
        obtain ⟨m, _, hm⟩ := mapOpt_mem hc c hcm
        exact sync_circle_shape hm
      · intro s hsm
        obtain ⟨m, _, hm⟩ := mapOpt_mem hs s hsm
        exact sync_square_shape hm

/-- C1 counterexample: the synchronizer does not sort the caches.  With the
connection set iterated in the order `("1","BD"), ("1","BC"), ("BB","2"),
("BB","1"), ("BB","BD"), ("BB","BC")` (a Python `set` iterates in an
unspecified, hash-dependent order), circle 1's `adjacentSquares` comes out
`["BD","BC","BB"]`, square BB's `adjacentSquares` comes out `["BD","BC"]`
and its `adjacentCircles` `[2,1]` — none of them sorted ascending. -/
theorem C1_counterexample :
    (sync_marker_adjacency_from_connections [circleOne] [squareBB]
        [("1", "BD"), ("1", "BC"), ("BB", "2"), ("BB", "1"), ("BB", "BD"), ("BB", "BC")]).map
        (fun r => (r.1.map Marker.adjacent_squares, r.2.map Marker.adjacent_squares,
          r.2.map Marker.adjacent_circles))
      = some ([["BD", "BC", "BB"]], [["BD", "BC"]], [[2, 1]]) ∧
    ¬ List.Sorted (· ≤ ·) (["BD", "BC", "BB"] : List String) ∧
    ¬ List.Sorted (· ≤ ·) (["BD", "BC"] : List String) ∧
    ¬ List.Sorted (· ≤ ·) ([2, 1] : List Int) := by
  refine ⟨by decide, ?_, ?_, by decide⟩
  · intro hsorted
    have h1 : ("BD" : String) ≤ "BC" := (List.sorted_cons.mp hsorted).1 "BC" (by simp)
    exact absurd ((pyStrLe_iff _ _).mpr h1) (by decide)
  · intro hsorted
    have h1 : ("BD" : String) ≤ "BC" := (List.sorted_cons.mp hsorted).1 "BC" (by simp)
    exact absurd ((pyStrLe_iff _ _).mpr h1) (by decide)

theorem C1_witness :
    (∀ c ∈ [circleOneSynced], c.adjacent_squares.Nodup ∧ c.adjacent_circles = []) ∧
    (∀ s ∈ [squareBBSynced], s.adjacent_squares.Nodup ∧ s.adjacent_circles.Nodup) :=
  C1_sync_caches_dedup [circleOne] [squareBB] [("BB", "1")]
    [circleOneSynced] [squareBBSynced] (by decide)

theorem sortTwo_comm (ta tb : String) (hne : ta ≠ tb) :
    (if pyStrLe ta tb then (ta, tb) else (tb, ta)) =
      (if pyStrLe tb ta then (tb, ta) else (ta, tb)) := by
  rcases lt_trichotomy ta tb with h | h | h
  · rw [if_pos ((pyStrLe_iff _ _).mpr h.le),
      if_neg (fun hc => absurd ((pyStrLe_iff _ _).mp hc) (not_le.mpr h))]
  · exact absurd h hne
  · rw [if_neg (fun hc => absurd ((pyStrLe_iff _ _).mp hc) (not_le.mpr h)),
      if_pos ((pyStrLe_iff _ _).mpr h.le)]

theorem sortTwo_lt (ta tb : String) (hne : ta ≠ tb) (t1 t2 : String)
    (h : (if pyStrLe ta tb then (ta, tb) else (tb, ta)) = (t1, t2)) : t1 < t2 := by
  split_ifs at h with hle
  · obtain ⟨rfl, rfl⟩ := Prod.mk.injEq .. ▸ h
    exact lt_of_le_of_ne ((pyStrLe_iff _ _).mp hle) hne
  · obtain ⟨rfl, rfl⟩ := Prod.mk.injEq .. ▸ h
    exact lt_of_not_le (fun hc => hle ((pyStrLe_iff _ _).mpr hc))

theorem ncp_some_iff (a b : String) (p : String × String) :
    normalized_connection_pair a b = some p ↔
      ∃ ta tb, normalize_node_token a = some ta ∧ normalize_node_token b = some tb ∧
        ta ≠ tb ∧
        (is_square_token ta || is_circle_token ta) = true ∧
        (is_square_token tb || is_circle_token tb) = true ∧
        (is_circle_token ta && is_circle_token tb) = false ∧
        p = (if pyStrLe ta tb then (ta, tb) else (tb, ta)) := by
  unfold normalized_connection_pair
  cases ha : normalize_node_token a with
  | none => simp
  | some ta =>
    cases hb : normalize_node_token b with
    | none => simp
    | some tb =>
      dsimp only
      constructor
      · intro h
        by_cases hne : ta = tb
        · rw [if_pos hne] at h; exact absurd h (by simp)
        rw [if_neg hne] at h
        by_cases hA : (!(is_square_token ta || is_circle_token ta)) = true
        · rw [if_pos hA] at h; exact absurd h (by simp)
        rw [if_neg hA] at h
        by_cases hB : (!(is_square_token tb || is_circle_token tb)) = true
        · rw [if_pos hB] at h; exact absurd h (by simp)
        rw [if_neg hB] at h
        by_cases hC : (is_circle_token ta && is_circle_token tb) = true
        · rw [if_pos hC] at h; exact absurd h (by simp)
        rw [if_neg hC] at h
        rw [← apply_ite some] at h
        refine ⟨ta, tb, rfl, rfl, hne, ?_, ?_, ?_, (Option.some_inj.mp h).symm⟩
        · cases hx : (is_square_token ta || is_circle_token ta) with
          | true => rfl
          | false => exact absurd (by rw [hx]; rfl) hA
        · cases hx : (is_square_token tb || is_circle_token tb) with
          | true => rfl
          | false => exact absurd (by rw [hx]; rfl) hB
        · cases hx : (is_circle_token ta && is_circle_token tb) with
          | true => exact absurd hx hC
          | false => rfl
      · rintro ⟨ta', tb', hta, htb, hne, hsa, hsb, hnc, rfl⟩
        obtain rfl : ta' = ta := (Option.some_inj.mp hta).symm
        obtain rfl : tb' = tb := (Option.some_inj.mp htb).symm
        rw [if_neg hne, if_neg (by simp [hsa]), if_neg (by simp [hsb]), if_neg (by simp [hnc])]
        exact (apply_ite some _ _ _).symm

theorem ncp_none_symm (a b : String) :
    normalized_connection_pair a b = none → normalized_connection_pair b a = none := by
  intro h
  cases hba : normalized_connection_pair b a with
  | none => rfl
  | some p =>
    exfalso
    obtain ⟨ta, tb, h1, h2, h3, h4, h5, h6, h7⟩ := (ncp_some_iff b a p).mp hba
    have : normalized_connection_pair a b = some (if pyStrLe tb ta then (tb, ta) else (ta, tb)) :=
      (ncp_some_iff a b _).mpr ⟨tb, ta, h2, h1, Ne.symm h3, h5, h4,
        by rw [Bool.and_comm]; exact h6, rfl⟩
    rw [h] at this; exact Option.noConfusion this

/-- C3: `_normalized_connection_pair` is symmetric in its arguments, and a
successful result is a strictly sorted 2-tuple. -/
theorem C3_pair_symmetric_sorted (a b : String) :
    normalized_connection_pair a b = normalized_connection_pair b a ∧
    ∀ t1 t2, normalized_connection_pair a b = some (t1, t2) → t1 < t2 := by
  constructor
  · cases hab : normalized_connection_pair a b with
    | none => exact (ncp_none_symm a b hab).symm
    | some p =>
      obtain ⟨ta, tb, h1, h2, h3, h4, h5, h6, h7⟩ := (ncp_some_iff a b p).mp hab
      refine ((ncp_some_iff b a p).mpr ⟨tb, ta, h2, h1, Ne.symm h3, h5, h4,
        by rw [Bool.and_comm]; exact h6, ?_⟩).symm
      rw [h7]; exact sortTwo_comm ta tb h3
  · intro t1 t2 h
    obtain ⟨ta, tb, h1, h2, h3, h4, h5, h6, h7⟩ := (ncp_some_iff a b (t1, t2)).mp h
    exact sortTwo_lt ta tb h3 t1 t2 h7.symm

theorem C3_witness :
    normalized_connection_pair "bc" "BB" = normalized_connection_pair "BB" "bc" ∧
    ("BB" : String) < "BC" :=
  ⟨(C3_pair_symmetric_sorted "bc" "BB").1,
    (C3_pair_symmetric_sorted "bc" "BB").2 "BB" "BC" (by decide)⟩


theorem token_pair_good {ta tb : String} (hne : ta ≠ tb)
    (hA : (is_square_token ta || is_circle_token ta) = true)
    (hB : (is_square_token tb || is_circle_token tb) = true)
    (hC : (is_circle_token ta && is_circle_token tb) = false) :
    ta ≠ tb ∧
      (is_square_token ta = true ∨ is_circle_token ta = true) ∧
      (is_square_token tb = true ∨ is_circle_token tb = true) ∧
      (is_square_token ta = true ∨ is_square_token tb = true) ∧
      ¬(is_circle_token ta = true ∧ is_circle_token tb = true) := by
  rw [Bool.or_eq_true] at hA hB
  refine ⟨hne, hA, hB, ?_, ?_⟩
  · rcases hA with hA | hA
    · exact Or.inl hA
    · rcases hB with hB | hB
      · exact Or.inr hB
      · rw [hA, hB] at hC; exact absurd hC (by simp)
  · rintro ⟨h1, h2⟩
    rw [h1, h2] at hC; exact absurd hC (by simp)

theorem ncp_good {a b : String} {p : String × String}
    (h : normalized_connection_pair a b = some p) :
    p.1 ≠ p.2 ∧
      (is_square_token p.1 = true ∨ is_circle_token p.1 = true) ∧
      (is_square_token p.2 = true ∨ is_circle_token p.2 = true) ∧
      (is_square_token p.1 = true ∨ is_square_token p.2 = true) ∧
      ¬(is_circle_token p.1 = true ∧ is_circle_token p.2 = true) := by
  obtain ⟨ta, tb, h1, h2, hne, hA, hB, hC, hp⟩ := (ncp_some_iff a b p).mp h
  split_ifs at hp with hle <;> subst hp
  · exact token_pair_good hne hA hB hC
  · exact token_pair_good (Ne.symm hne) hB hA (by rw [Bool.and_comm]; exact hC)

theorem mem_load_connections_step {acc : Finset (String × String)} {line : List String}
    {p : String × String} (h : p ∈ load_connections_step acc line) :
    p ∈ acc ∨ ∃ a b, normalized_connection_pair a b = some p := by
  match line with
  | [] => exact Or.inl h
  | [a] => exact Or.inl h
  | a :: b :: c :: rest => exact Or.inl h
  | [a, b] =>
    rw [load_connections_step] at h
    cases hab : normalized_connection_pair a b with
    | none => rw [hab] at h; exact Or.inl h
    | some pair =>
      rw [hab] at h
      rcases Finset.mem_insert.mp h with rfl | h
      · exact Or.inr ⟨a, b, hab⟩
      · exact Or.inl h

theorem mem_load_connections_go {p : String × String} :
    ∀ (lines : List (List String)) (acc : Finset (String × String)),
      p ∈ lines.foldl load_connections_step acc →
      p ∈ acc ∨ ∃ a b, normalized_connection_pair a b = some p := by
  intro lines
  induction lines with
  | nil => intro acc h; exact Or.inl h
  | cons line rest ih =>
    intro acc h
    rcases ih (load_connections_step acc line) h with h' | h'
    · exact mem_load_connections_step h'
    · exact Or.inr h'

theorem mem_connection_pairs_for_marker {m : Marker} {p : String × String}
    (h : p ∈ connection_pairs_for_marker m) :
    ∃ a b, normalized_connection_pair a b = some p := by
  rw [connection_pairs_for_marker] at h
  cases ht : marker_token m with
  | none => rw [ht] at h; exact absurd h (Finset.not_mem_empty p)
  | some t =>
    rw [ht] at h
    rcases List.mem_append.mp (List.mem_toFinset.mp h) with h' | h'
    · obtain ⟨sq, _, hsq⟩ := List.mem_filterMap.mp h'
      exact ⟨t, sq, hsq⟩
    · split_ifs at h' with hk
      · obtain ⟨ci, _, hci⟩ := List.mem_filterMap.mp h'
        exact ⟨t, pyIntStr ci, hci⟩
      · exact absurd h' (List.not_mem_nil p)

theorem mem_build_connections_go {p : String × String} :
    ∀ (ms : List Marker) (acc : Finset (String × String)),
      p ∈ ms.foldl (fun acc m => acc ∪ connection_pairs_for_marker m) acc →
      p ∈ acc ∨ ∃ a b, normalized_connection_pair a b = some p := by
  intro ms
  induction ms with
  | nil => intro acc h; exact Or.inl h
  | cons m rest ih =>
    intro acc h
    rcases ih _ h with h' | h'
    · rcases Finset.mem_union.mp h' with h'' | h''
      · exact Or.inl h''
      · exact Or.inr (mem_connection_pairs_for_marker h'')
    · exact Or.inr h'

theorem reachable_pairs_from_ncp {s : Finset (String × String)} (h : ReachableConns s) :
    ∀ p ∈ s, ∃ a b, normalized_connection_pair a b = some p := by
  induction h with
  | load lines =>
    intro p hp
    rcases mem_load_connections_go lines ∅ hp with h' | h'
    · exact absurd h' (Finset.not_mem_empty p)
    · exact h'
  | legacy circles squares =>
    intro p hp
    rcases mem_build_connections_go (circles ++ squares) ∅ hp with h' | h'
    · exact absurd h' (Finset.not_mem_empty p)
    · exact h'
  | add s m hs ih =>
    intro p hp
    rcases Finset.mem_union.mp hp with h' | h'
    · exact ih p h'
    · exact mem_connection_pairs_for_marker h'
  | remove s t hs ih =>
    intro p hp
    exact ih p (Finset.mem_of_mem_filter p hp)

/-- C2: at every reachable connection-set state (after load, legacy
migration, or any add/remove/replace of a marker's connections) every
stored pair consists of two distinct valid tokens, at least one of which is
a square token, and never two circle tokens. -/
theorem C2_connection_invariant (s : Finset (String × String)) (h : ReachableConns s) :
    ∀ p ∈ s, p.1 ≠ p.2 ∧
      (is_square_token p.1 = true ∨ is_circle_token p.1 = true) ∧
      (is_square_token p.2 = true ∨ is_circle_token p.2 = true) ∧
      (is_square_token p.1 = true ∨ is_square_token p.2 = true) ∧
      ¬(is_circle_token p.1 = true ∧ is_circle_token p.2 = true) := by
  intro p hp
  obtain ⟨a, b, hab⟩ := reachable_pairs_from_ncp h p hp
  exact ncp_good hab

theorem C2_witness :
    ("1", "BB").1 ≠ ("1", "BB").2 ∧
      (is_square_token ("1", "BB").1 = true ∨ is_circle_token ("1", "BB").1 = true) ∧
      (is_square_token ("1", "BB").2 = true ∨ is_circle_token ("1", "BB").2 = true) ∧
      (is_square_token ("1", "BB").1 = true ∨ is_square_token ("1", "BB").2 = true) ∧
      ¬(is_circle_token ("1", "BB").1 = true ∧ is_circle_token ("1", "BB").2 = true) :=
  C2_connection_invariant (load_connections_list [["BB", "1"]])
    (ReachableConns.load [["BB", "1"]]) ("1", "BB") (by decide)


theorem sync_circle_idem {conns : List (String × String)} :
    ∀ m m' : Marker, sync_circle conns m = some m' → sync_circle conns m' = some m' := by
  intro m m' h
  simp only [sync_circle, Option.map_eq_some'] at h
  obtain ⟨t, ht, rfl⟩ := h
  have ht' : marker_token { m with
      adjacent_squares := normalize_adjacent_squares (circle_adj_squares t conns),
      adjacent_circles := [] } = some t := ht
  rw [sync_circle, ht']
  rfl

theorem sync_square_idem {conns : List (String × String)} :
    ∀ m m' : Marker, sync_square conns m = some m' → sync_square conns m' = some m' := by
  intro m m' h
  simp only [sync_square, Option.bind_eq_some, Option.map_eq_some'] at h
  obtain ⟨t, ht, cis, hcis, rfl⟩ := h
  have ht' : marker_token { m with
      adjacent_squares := normalize_adjacent_squares (square_adj_squares t conns),
      adjacent_circles := normalize_adjacent_circles cis } = some t := ht
  rw [sync_square, ht', Option.some_bind, hcis, Option.map_some']

theorem mapOpt_idem {α : Type} {f : α → Option α}
    (hf : ∀ x y, f x = some y → f y = some y) :
    ∀ {l l' : List α}, mapOpt f l = some l' → mapOpt f l' = some l' := by
  intro l
  induction l with
  | nil => intro l' h; simp [mapOpt] at h; subst h; rfl
  | cons a rest ih =>
    intro l' h
    rw [mapOpt] at h
    cases hfa : f a with
    | none => rw [hfa] at h; simp at h
    | some b =>
      rw [hfa] at h
      cases hrest : mapOpt f rest with
      | none => rw [hrest] at h; simp at h
      | some bs =>
        rw [hrest] at h
        simp at h; subst h
        rw [mapOpt, hf a b hfa, ih hrest]
        rfl

/-- C6: running the Adjacency Synchronizer a second time on its own output
(with the same connection set) reproduces that output exactly, so the caches
after two runs equal the caches after one. -/
theorem C6_sync_idempotent (circles squares : List Marker) (conns : List (String × String))
    (cs ss : List Marker)
    (h : sync_marker_adjacency_from_connections circles squares conns = some (cs, ss)) :
    sync_marker_adjacency_from_connections cs ss conns = some (cs, ss) := by
  rw [sync_marker_adjacency_from_connections] at h ⊢
  cases hc : mapOpt (sync_circle conns) circles with
  | none => rw [hc] at h; simp at h
  | some cs' =>
    rw [hc] at h
    cases hs : mapOpt (sync_square conns) squares with
    | none => rw [hs] at h; simp at h
    | some ss' =>
      rw [hs] at h
      simp only [Option.bind_some, Option.map_some', Option.some_inj, Prod.mk.injEq] at h
      obtain ⟨rfl, rfl⟩ := h
      rw [mapOpt_idem sync_circle_idem hc, mapOpt_idem sync_square_idem hs]
      rfl

theorem C6_witness :
    sync_marker_adjacency_from_connections [circleOneSynced] [squareBBSynced] [("BB", "1")]
      = some ([circleOneSynced], [squareBBSynced]) :=
  C6_sync_idempotent [circleOne] [squareBB] [("BB", "1")]
    [circleOneSynced] [squareBBSynced] (by decide)


/-- C9: `_remove_marker_connections` keeps exactly the pairs not containing
the deleted marker's token (so it removes every pair containing it and no
other); in the example scenario, deleting square BB removes the
BB-BC connection and the synchronizer then leaves square BC with an empty
`adjacentSquares` cache. -/
theorem C9_delete_removes_connections :
    (∀ (m : Marker) (conns s : Finset (String × String)) (t : String),
        marker_token m = some t → remove_marker_connections m conns = some s →
        ∀ p, p ∈ s ↔ p ∈ conns ∧ t ≠ p.1 ∧ t ≠ p.2) ∧
    remove_marker_connections squareBB {("BB", "BC")} = some ∅ ∧
    sync_marker_adjacency_from_connections [] [squareBC] [] = some ([], [squareBC]) ∧
    squareBC.adjacent_squares = [] := by
  refine ⟨?_, by decide, by decide, rfl⟩
  intro m conns s t ht hrm p
  rw [remove_marker_connections, ht, Option.map_some', Option.some_inj] at hrm
  subst hrm
  rw [Finset.mem_filter]

theorem C9_witness :
    ("BB", "BC") ∈ (∅ : Finset (String × String)) ↔
      ("BB", "BC") ∈ ({("BB", "BC")} : Finset (String × String)) ∧
      "BB" ≠ ("BB", "BC").1 ∧ "BB" ≠ ("BB", "BC").2 :=
  C9_delete_removes_connections.1 squareBB {("BB", "BC")} ∅ "BB"
    (by decide) (by decide) ("BB", "BC")


/-- C5 counterexample: `Marker.to_record` emits no adjacency keys at all.
For a circle whose `adjacentSquares` cache is `["BB"]` the persisted line
has no `adjacentSquares` field (`none` models an absent JSON key), and for
a square with `adjacentCircles` `[1]` the line has neither adjacency
field. -/
theorem C5_counterexample :
    (Marker.to_record circleOneSynced).adjacentSquares = none ∧
    (Marker.to_record squareBBSynced).adjacentSquares = none ∧
    (Marker.to_record squareBBSynced).adjacentCircles = none := by
  exact ⟨rfl, rfl, rfl⟩

/-- C5 (amended): every line written by `_write_jsonl` is a record holding
exactly the marker's `id` and its json-normalized `x` and `y`; no
`adjacentSquares` or `adjacentCircles` key is ever written, for circles and
squares alike. -/
theorem C5_written_record_fields (markers : List Marker) :
    ∀ r ∈ write_jsonl markers, r.adjacentSquares = none ∧ r.adjacentCircles = none ∧
      ∃ m ∈ markers, r.id = m.id ∧ r.x = json_number m.x ∧ r.y = json_number m.y := by
  intro r hr
  obtain ⟨m, hm, rfl⟩ := List.mem_map.mp hr
  exact ⟨rfl, rfl, m, hm, rfl, rfl, rfl⟩

theorem C5_witness :
    (Marker.to_record circleOne).adjacentSquares = none ∧
    (Marker.to_record circleOne).adjacentCircles = none ∧
    ∃ m ∈ [circleOne], (Marker.to_record circleOne).id = m.id ∧
      (Marker.to_record circleOne).x = json_number m.x ∧
      (Marker.to_record circleOne).y = json_number m.y :=
  C5_written_record_fields [circleOne] (Marker.to_record circleOne) (by simp [write_jsonl])


theorem chainLtB_pairwise : ∀ l : List String, chainLtB l = true → List.Pairwise (· < ·) l
  | [] => by intro _; exact List.Pairwise.nil
  | [a] => by intro _; simp
  | a :: b :: rest => by
    intro h
    rw [chainLtB] at h
    simp only [Bool.and_eq_true] at h
    obtain ⟨h1, h2⟩ := h
    have hrest := chainLtB_pairwise (b :: rest) h2
    refine List.pairwise_cons.mpr ⟨?_, hrest⟩
    intro x hx
    rcases List.mem_cons.mp hx with rfl | hx
    · exact (pyStrLt_iff a x).mp h1
    · exact lt_trans ((pyStrLt_iff a b).mp h1) ((List.pairwise_cons.mp hrest).1 x hx)

set_option maxRecDepth 4096 in
theorem all_square_codes_sorted : List.Pairwise (· < ·) all_square_codes :=
  chainLtB_pairwise all_square_codes (by decide)

set_option maxRecDepth 4096 in
theorem all_square_codes_ge_BB : ∀ c ∈ all_square_codes, pyStrLt c "BB" = false := by decide

theorem mem_codes_go (ls : List Char) (c : String) :
    c ∈ ls.foldr (fun first acc =>
        (SQUARE_LETTERS.map fun second => (⟨[first, second]⟩ : String)) ++ acc) [] ↔
      ∃ f ∈ ls, ∃ s ∈ SQUARE_LETTERS, c = ⟨[f, s]⟩ := by
  induction ls with
  | nil => simp
  | cons a rest ih =>
    simp only [List.foldr_cons, List.mem_append, List.mem_map, ih, List.mem_cons]
    constructor
    · rintro (⟨s, hs, rfl⟩ | ⟨f, hf, s, hs, rfl⟩)
      · exact ⟨a, Or.inl rfl, s, hs, rfl⟩
      · exact ⟨f, Or.inr hf, s, hs, rfl⟩
    · rintro ⟨f, rfl | hf, s, hs, rfl⟩
      · exact Or.inl ⟨s, hs, rfl⟩
      · exact Or.inr ⟨f, hf, s, hs, rfl⟩

theorem is_square_token_iff (c : String) :
    is_square_token c = true ↔ ∃ f ∈ SQUARE_LETTERS, ∃ s ∈ SQUARE_LETTERS, c = ⟨[f, s]⟩ := by
  obtain ⟨data⟩ := c
  rw [is_square_token]
  simp only [Bool.and_eq_true, beq_iff_eq, List.all_eq_true, decide_eq_true_eq]
  constructor
  · rintro ⟨hlen, hall⟩
    obtain ⟨f, s, rfl⟩ := List.length_eq_two.mp hlen
    exact ⟨f, hall f (by simp), s, hall s (by simp), rfl⟩
  · rintro ⟨f, hf, s, hs, heq⟩
    obtain rfl : data = [f, s] := congrArg String.data heq
    refine ⟨rfl, ?_⟩
    intro x hx
    simp only [List.mem_cons, List.not_mem_nil, or_false] at hx
    rcases hx with rfl | rfl
    · exact hf
    · exact hs

theorem mem_all_square_codes (c : String) :
    c ∈ all_square_codes ↔ is_square_token c = true := by
  rw [all_square_codes, mem_codes_go, is_square_token_iff]

theorem find?_sorted_min {p : String → Bool} :
    ∀ {l : List String}, List.Pairwise (· < ·) l → ∀ {c : String}, l.find? p = some c →
      ∀ c' ∈ l, p c' = true → c ≤ c' := by
  intro l
  induction l with
  | nil => intro _ c h; simp at h
  | cons a rest ih =>
    intro hsort c h c' hc' hpc'
    rw [List.find?_cons] at h
    cases hpa : p a with
    | true =>
      rw [hpa] at h
      obtain rfl : a = c := Option.some_inj.mp h
      rcases List.mem_cons.mp hc' with rfl | hc'
      · exact le_refl _
      · exact le_of_lt ((List.pairwise_cons.mp hsort).1 c' hc')
    | false =>
      rw [hpa] at h
      rcases List.mem_cons.mp hc' with rfl | hc'
      · rw [hpc'] at hpa; exact absurd hpa (by simp)
      · exact ih (List.pairwise_cons.mp hsort).2 h c' hc' hpc'

/-- C7: `_next_square_id` returns the lexicographically least two-consonant
code not in the used set (hence never a code already used by an existing
square), returns `none` exactly when every code of the consonant-squared
space is used, and on the example used-set of every code "BB".."BZ" except
"BF" it returns "BF". -/
theorem C7_next_square_id (used : List String) :
    (∀ c, next_square_id used = some c →
      is_square_token c = true ∧ c ∉ used ∧
      ∀ c', is_square_token c' = true → c' ∉ used → c ≤ c') ∧
    (next_square_id used = none ↔ ∀ c, is_square_token c = true → c ∈ used) ∧
    next_square_id usedBF = some "BF" ∧
    (∀ (squares : List Marker) (c : String), next_square_id_of_squares squares = some c →
      ∀ m ∈ squares, pyUpper (idStr m.id) ≠ c) := by
  have hp : ∀ (u : List String) (c : String),
      (!(pyStrLt c "BB") && !(decide (c ∈ u))) = true ↔
        (pyStrLt c "BB" = false ∧ c ∉ u) := by
    intro u c
    simp [Bool.and_eq_true, Bool.not_eq_true', decide_eq_false_iff_not]
  have main : ∀ (u : List String) (c : String), next_square_id u = some c →
      is_square_token c = true ∧ c ∉ u ∧
      ∀ c', is_square_token c' = true → c' ∉ u → c ≤ c' := by
    intro u c h
    rw [next_square_id] at h
    have hmem : c ∈ all_square_codes := List.mem_of_find?_eq_some h
    have hfs0 := List.find?_some h
    have hfs : (!(pyStrLt c "BB") && !(decide (c ∈ u))) = true := hfs0
    have hpc := (hp u c).mp hfs
    refine ⟨(mem_all_square_codes c).mp hmem, hpc.2, ?_⟩
    intro c' hc' hnu
    have hmem' : c' ∈ all_square_codes := (mem_all_square_codes c').mpr hc'
    exact find?_sorted_min all_square_codes_sorted h c' hmem'
      ((hp u c').mpr ⟨all_square_codes_ge_BB c' hmem', hnu⟩)
  refine ⟨main used, ?_, by decide, ?_⟩
  · rw [next_square_id, List.find?_eq_none]
    constructor
    · intro hall c hc
      have hmem := (mem_all_square_codes c).mpr hc
      by_contra hnu
      exact hall c hmem ((hp used c).mpr ⟨all_square_codes_ge_BB c hmem, hnu⟩)
    · intro hall c hmem hpc
      have hpc' : (!(pyStrLt c "BB") && !(decide (c ∈ used))) = true := hpc
      exact absurd (hall c ((mem_all_square_codes c).mp hmem)) ((hp used c).mp hpc').2
  · intro squares c h m hm heq
    have hnu := (main _ c h).2.1
    exact hnu (List.mem_map.mpr ⟨m, hm, heq⟩)

theorem C7_witness :
    is_square_token "BB" = true ∧ "BB" ∉ ([] : List String) ∧
    ∀ c', is_square_token c' = true → c' ∉ ([] : List String) → "BB" ≤ c' :=
  (C7_next_square_id []).1 "BB" (by decide)


theorem digit_char_facts (m : Nat) (h : m < 10) :
    (Char.ofNat (48 + m)).isDigit = true ∧ (Char.ofNat (48 + m)).toNat = 48 + m ∧
    isPySpace (Char.ofNat (48 + m)) = false ∧ ¬ Char.ofNat (48 + m) = '_' ∧
    ¬ Char.ofNat (48 + m) = '+' ∧ ¬ Char.ofNat (48 + m) = '-' := by
  interval_cases m <;> exact ⟨rfl, rfl, rfl, by decide, by decide, by decide⟩

theorem letters_toNat_ge : ∀ c ∈ SQUARE_LETTERS, 66 ≤ c.toNat := by decide

theorem digitsVal_append_digit (xs : List Char) (c : Char) (hc : ¬ c = '_') :
    digitsVal (xs ++ [c]) = digitsVal xs * 10 + (c.toNat - 48) := by
  rw [digitsVal, digitsVal, List.foldl_append]
  simp [hc]

theorem natDigitsRevGo_spec :
    ∀ (fuel n : Nat), n < fuel →
      natDigitsRevGo n fuel ≠ [] ∧
      (∀ c ∈ natDigitsRevGo n fuel, ∃ m, m < 10 ∧ c = Char.ofNat (48 + m)) ∧
      digitsVal (natDigitsRevGo n fuel).reverse = n := by
  intro fuel
  induction fuel with
  | zero => intro n h; exact absurd h (Nat.not_lt_zero n)
  | succ fuel ih =>
    intro n hn
    rw [natDigitsRevGo]
    by_cases h10 : n < 10
    · rw [if_pos h10]
      refine ⟨by simp, ?_, ?_⟩
      · intro c hc
        simp only [List.mem_singleton] at hc
        exact ⟨n, h10, hc⟩
      · have hfacts := digit_char_facts n h10
        rw [List.reverse_singleton, show ([Char.ofNat (48 + n)] : List Char) =
          [] ++ [Char.ofNat (48 + n)] from rfl, digitsVal_append_digit _ _ hfacts.2.2.2.1]
        rw [hfacts.2.1]
        simp [digitsVal]
    · rw [if_neg h10]
      have hdiv : n / 10 < fuel := by
        have h1 : n / 10 < n := Nat.div_lt_self (by omega) (by omega)
        omega
      obtain ⟨hne, hmem, hval⟩ := ih (n / 10) hdiv
      have hm10 : n % 10 < 10 := Nat.mod_lt n (by omega)
      have hfacts := digit_char_facts (n % 10) hm10
      refine ⟨by simp, ?_, ?_⟩
      · intro c hc
        rcases List.mem_cons.mp hc with rfl | hc
        · exact ⟨n % 10, hm10, rfl⟩
        · exact hmem c hc
      · rw [List.reverse_cons, digitsVal_append_digit _ _ hfacts.2.2.2.1, hval, hfacts.2.1]
        omega

theorem pyIntDigitsRest_all_digits :
    ∀ cs : List Char, (∀ c ∈ cs, c.isDigit = true) → pyIntDigitsRest cs = true := by
  intro cs
  induction cs with
  | nil => intro _; rfl
  | cons c rest ih =>
    intro h
    have hc : c.isDigit = true := h c (List.mem_cons_self _ _)
    have hcu : ¬ c = '_' := by intro heq; rw [heq] at hc; exact absurd hc (by decide)
    rw [pyIntDigitsRest.eq_def]
    dsimp only
    rw [if_neg hcu, hc, ih (fun d hd => h d (List.mem_cons_of_mem _ hd))]
    rfl

theorem pyIntDigits_all_digits (cs : List Char) (hne : cs ≠ [])
    (h : ∀ c ∈ cs, c.isDigit = true) : pyIntDigits cs = true := by
  cases cs with
  | nil => exact absurd rfl hne
  | cons c rest =>
    rw [pyIntDigits, h c (List.mem_cons_self _ _),
      pyIntDigitsRest_all_digits rest (fun d hd => h d (List.mem_cons_of_mem _ hd))]
    rfl

theorem dropWhile_false {p : Char → Bool} :
    ∀ cs : List Char, (∀ c ∈ cs, p c = false) → cs.dropWhile p = cs := by
  intro cs
  induction cs with
  | nil => intro _; rfl
  | cons c rest _ =>
    intro h
    rw [List.dropWhile_cons, h c (List.mem_cons_self _ _)]
    simp

theorem pyStripChars_no_space (cs : List Char) (h : ∀ c ∈ cs, isPySpace c = false) :
    pyStripChars cs = cs := by
  rw [pyStripChars, dropWhile_false cs h,
    dropWhile_false cs.reverse (fun c hc => h c (List.mem_reverse.mp hc)), List.reverse_reverse]

theorem pyParseInt_digit_chars (cs : List Char) (hne : cs ≠ [])
    (hmem : ∀ c ∈ cs, ∃ m, m < 10 ∧ c = Char.ofNat (48 + m)) :
    pyParseInt ⟨cs⟩ = some ((digitsVal cs : Nat) : Int) := by
  have hnospace : ∀ c ∈ cs, isPySpace c = false := fun c hc => by
    obtain ⟨m, hm, rfl⟩ := hmem c hc; exact (digit_char_facts m hm).2.2.1
  rw [pyParseInt]
  dsimp only
  rw [pyStripChars_no_space cs hnospace]
  cases cs with
  | nil => exact absurd rfl hne
  | cons c rest =>
    obtain ⟨m, hm, hc⟩ := hmem c (List.mem_cons_self _ _)
    have hfacts := digit_char_facts m hm
    have hdig : pyIntDigits (c :: rest) = true := by
      refine pyIntDigits_all_digits _ (by simp) ?_
      intro d hd
      obtain ⟨k, hk, rfl⟩ := hmem d hd
      exact (digit_char_facts k hk).1
    dsimp only
    rw [if_neg (hc ▸ hfacts.2.2.2.2.1), if_neg (hc ▸ hfacts.2.2.2.2.2), hdig]
    simp

theorem pyParseInt_pyIntStr (n : Int) : pyParseInt (pyIntStr n) = some n := by
  by_cases hneg : n < 0
  · obtain ⟨hne, hmem, hval⟩ := natDigitsRevGo_spec ((-n).toNat + 1) (-n).toNat (by omega)
    have hmemrev : ∀ c ∈ (natDigitsRev (-n).toNat).reverse, ∃ m, m < 10 ∧ c = Char.ofNat (48 + m) :=
      fun c hc => hmem c (List.mem_reverse.mp hc)
    have hnerev : (natDigitsRev (-n).toNat).reverse ≠ [] := by
      intro h; exact hne (List.reverse_eq_nil_iff.mp h)
    have hnospace : ∀ c ∈ ('-' :: (natDigitsRev (-n).toNat).reverse), isPySpace c = false := by
      intro c hc
      rcases List.mem_cons.mp hc with rfl | hc
      · rfl
      · obtain ⟨m, hm, rfl⟩ := hmemrev c hc; exact (digit_char_facts m hm).2.2.1
    have hdig : pyIntDigits (natDigitsRev (-n).toNat).reverse = true := by
      refine pyIntDigits_all_digits _ hnerev ?_
      intro d hd
      obtain ⟨k, hk, rfl⟩ := hmemrev d hd
      exact (digit_char_facts k hk).1
    rw [pyIntStr, if_pos hneg, pyParseInt]
    dsimp only
    rw [pyStripChars_no_space _ hnospace]
    dsimp only
    rw [if_neg (by decide), if_pos rfl, hdig]
    have hvalrev : digitsVal (natDigitsRev (-n).toNat).reverse = (-n).toNat := hval
    rw [if_pos rfl, hvalrev]
    congr 1
    rw [Int.toNat_of_nonneg (by omega)]
    omega
  · obtain ⟨hne, hmem, hval⟩ := natDigitsRevGo_spec (n.toNat + 1) n.toNat (by omega)
    have hmemrev : ∀ c ∈ (natDigitsRev n.toNat).reverse, ∃ m, m < 10 ∧ c = Char.ofNat (48 + m) :=
      fun c hc => hmem c (List.mem_reverse.mp hc)
    have hnerev : (natDigitsRev n.toNat).reverse ≠ [] := by
      intro h; exact hne (List.reverse_eq_nil_iff.mp h)
    rw [pyIntStr, if_neg hneg]
    rw [pyParseInt_digit_chars _ hnerev hmemrev]
    have hvalrev : digitsVal (natDigitsRev n.toNat).reverse = n.toNat := hval
    rw [hvalrev, Int.toNat_of_nonneg (by omega)]

theorem is_square_token_pyIntStr (n : Int) : is_square_token (pyIntStr n) = false := by
  by_contra h
  rw [Bool.not_eq_false] at h
  obtain ⟨f, hf, s, hs, heq⟩ := (is_square_token_iff _).mp h
  by_cases hneg : n < 0
  · rw [pyIntStr, if_pos hneg] at heq
    have hdata : '-' :: (natDigitsRev (-n).toNat).reverse = [f, s] := congrArg String.data heq
    injection hdata with h1 h2
    rw [← h1] at hf
    exact absurd hf (by decide)
  · rw [pyIntStr, if_neg hneg] at heq
    have hdata : (natDigitsRev n.toNat).reverse = [f, s] := congrArg String.data heq
    obtain ⟨hne, hmem, hval⟩ := natDigitsRevGo_spec (n.toNat + 1) n.toNat (by omega)
    have hfmem : f ∈ (natDigitsRev n.toNat).reverse := by rw [hdata]; simp
    obtain ⟨m, hm, rfl⟩ := hmem f (List.mem_reverse.mp hfmem)
    have h66 := letters_toNat_ge _ hf
    rw [(digit_char_facts m hm).2.1] at h66
    omega

/-- C8: `_normalize_node_token` returns the square token (the trimmed,
uppercased input) exactly when that string is two consonant letters;
otherwise it returns the canonical circle token exactly when the trimmed
input parses as a Python int (and that result really is a circle token and
not a square token); otherwise it returns `None`.  Consequently only valid
tokens (square or circle) ever appear as components of reachable connection
sets. -/
theorem C8_token_normalization (raw : String) :
    (is_square_token (pyUpper (pyStrip raw)) = true →
        normalize_node_token raw = some (pyUpper (pyStrip raw))) ∧
    (is_square_token (pyUpper (pyStrip raw)) = false →
        (∀ n, pyParseInt (pyStrip raw) = some n →
            normalize_node_token raw = some (pyIntStr n) ∧
            is_circle_token (pyIntStr n) = true ∧
            is_square_token (pyIntStr n) = false) ∧
        (pyParseInt (pyStrip raw) = none → normalize_node_token raw = none)) ∧
    (∀ s, ReachableConns s → ∀ p ∈ s,
        (is_square_token p.1 = true ∨ is_circle_token p.1 = true) ∧
        (is_square_token p.2 = true ∨ is_circle_token p.2 = true)) := by
  refine ⟨?_, ?_, ?_⟩
  · intro hsq
    rw [normalize_node_token]
    dsimp only
    rw [if_neg ?hne0, if_pos hsq]
    case hne0 =>
      intro h0
      rw [h0] at hsq
      exact absurd hsq (by decide)
  · intro hsq
    constructor
    · intro n hn
      refine ⟨?_, ?_, is_square_token_pyIntStr n⟩
      · rw [normalize_node_token]
        dsimp only
        rw [if_neg ?hne1, if_neg (by simp [hsq]), hn]
        case hne1 =>
          intro h0
          rw [h0] at hn
          rw [show pyParseInt "" = none from by decide] at hn
          exact Option.noConfusion hn
      · rw [is_circle_token, pyParseInt_pyIntStr n]
        rfl
    · intro hn
      rw [normalize_node_token]
      dsimp only
      by_cases h0 : pyStrip raw = ""
      · rw [if_pos h0]
      · rw [if_neg h0, if_neg (by simp [hsq]), hn]
  · intro s hs p hp
    obtain ⟨a, b, hab⟩ := reachable_pairs_from_ncp hs p hp
    have hg := ncp_good hab
    exact ⟨hg.2.1, hg.2.2.1⟩

theorem C8_witness :
    normalize_node_token " bb " = some (pyUpper (pyStrip " bb ")) ∧
    (normalize_node_token " 07 " = some (pyIntStr 7) ∧
      is_circle_token (pyIntStr 7) = true ∧ is_square_token (pyIntStr 7) = false) ∧
    normalize_node_token "a!" = none :=
  ⟨(C8_token_normalization " bb ").1 (by decide),
    ((C8_token_normalization " 07 ").2.1 (by decide)).1 7 (by decide),
    ((C8_token_normalization "a!").2.1 (by decide)).2 (by decide)⟩


theorem foldl_min_spec {α : Type} (key : α → ℚ) :
    ∀ (xs : List α) (b r : α),
      xs.foldl (fun best c => if key c < key best then c else best) b = r →
      ((r = b ∧ ∀ y ∈ xs, key b ≤ key y) ∨
        (∃ pre post, xs = pre ++ r :: post ∧ key r < key b ∧
          (∀ y ∈ pre, key r < key y) ∧ (∀ y ∈ post, key r ≤ key y))) := by
  intro xs
  induction xs with
  | nil =>
    intro b r h
    exact Or.inl ⟨h.symm, by simp⟩
  | cons a rest ih =>
    intro b r h
    rw [List.foldl_cons] at h
    by_cases ha : key a < key b
    · rw [if_pos ha] at h
      rcases ih a r h with ⟨rfl, hall⟩ | ⟨pre, post, hsplit, hlt, hpre, hpost⟩
      · refine Or.inr ⟨[], rest, by simp, ha, by simp, hall⟩
      · refine Or.inr ⟨a :: pre, post, by rw [hsplit]; simp, lt_trans hlt ha, ?_, hpost⟩
        intro y hy
        rcases List.mem_cons.mp hy with rfl | hy
        · exact hlt
        · exact hpre y hy
    · rw [if_neg ha] at h
      rcases ih b r h with ⟨rfl, hall⟩ | ⟨pre, post, hsplit, hlt, hpre, hpost⟩
      · refine Or.inl ⟨rfl, ?_⟩
        intro y hy
        rcases List.mem_cons.mp hy with rfl | hy
        · exact le_of_not_lt ha
        · exact hall y hy
      · refine Or.inr ⟨a :: pre, post, by rw [hsplit]; simp, hlt, ?_, hpost⟩
        intro y hy
        rcases List.mem_cons.mp hy with rfl | hy
        · exact lt_of_lt_of_le hlt (le_of_not_lt ha)
        · exact hpre y hy

/-- C10: `_find_nearest_marker` returns a candidate of minimal squared
distance, and on ties the earliest in circles-then-squares enumeration
order (everything before the winner is strictly farther); by contrast
`_find_nearest_adjacent_target_for_square` resolves a square/circle tie in
favor of the square, as the concrete equidistant example shows (the circle
wins in `_find_nearest_marker`, the square in the adjacency-target
query). -/
theorem C10_nearest_marker (circles squares : List Marker) (x y : ℚ) :
    (marker_candidates circles squares ≠ [] →
      ∃ pre post r, find_nearest_marker circles squares x y = some r ∧
        marker_candidates circles squares = pre ++ r :: post ∧
        (∀ c ∈ marker_candidates circles squares,
          dist_sq r.2.2 x y ≤ dist_sq c.2.2 x y) ∧
        (∀ c ∈ pre, dist_sq r.2.2 x y < dist_sq c.2.2 x y)) ∧
    (∀ act sq ci,
      find_nearest_square squares x y (preview_exclude_index act) = some sq →
      find_nearest_circle circles x y = some ci →
      dist_sq sq x y ≤ dist_sq ci x y →
      find_nearest_adjacent_target_for_square circles squares act x y
        = some ("square", sq)) ∧
    find_nearest_marker [circleOne] [squareBB] 5 5 = some ("circle", 0, circleOne) ∧
    find_nearest_adjacent_target_for_square [circleOne] [squareBB] none 5 5
      = some ("square", squareBB) := by
  refine ⟨?_, ?_, by decide, by decide⟩
  · intro hne
    cases hcs : marker_candidates circles squares with
    | nil => exact absurd hcs hne
    | cons a rest =>
      rw [find_nearest_marker, hcs, min_by_key]
      rcases foldl_min_spec (fun c => dist_sq c.2.2 x y) rest a _ rfl with
        ⟨hr, hall⟩ | ⟨pre, post, hsplit, hlt, hpre, hpost⟩
      · rw [hr]
        refine ⟨[], rest, a, rfl, rfl, ?_, ?_⟩
        · intro c hc
          rcases List.mem_cons.mp hc with rfl | hc
          · exact le_refl _
          · exact hall c hc
        · intro c hc; exact absurd hc (List.not_mem_nil c)
      · refine ⟨a :: pre, post, _, rfl, ?_, ?_, ?_⟩
        · conv_lhs => rw [hsplit]
          rfl
        · intro c hc
          rcases List.mem_cons.mp hc with rfl | hc
          · exact le_of_lt hlt
          · rw [hsplit] at hc
            rcases List.mem_append.mp hc with hc | hc
            · exact le_of_lt (hpre c hc)
            · rcases List.mem_cons.mp hc with rfl | hc
              · exact le_refl _
              · exact hpost c hc
        · intro c hc
          rcases List.mem_cons.mp hc with rfl | hc
          · exact hlt
          · exact hpre c hc
  · intro act sq ci hsq hci hle
    rw [find_nearest_adjacent_target_for_square, hsq, hci]
    dsimp only
    rw [if_pos hle]

theorem C10_witness :
    (∃ pre post r, find_nearest_marker [circleOne] [squareBB] 5 5 = some r ∧
      marker_candidates [circleOne] [squareBB] = pre ++ r :: post ∧
      (∀ c ∈ marker_candidates [circleOne] [squareBB],
        dist_sq r.2.2 5 5 ≤ dist_sq c.2.2 5 5) ∧
      (∀ c ∈ pre, dist_sq r.2.2 5 5 < dist_sq c.2.2 5 5)) ∧
    find_nearest_adjacent_target_for_square [circleOne] [squareBB] none 5 5
      = some ("square", squareBB) :=
  ⟨(C10_nearest_marker [circleOne] [squareBB] 5 5).1 (by decide),
    (C10_nearest_marker [circleOne] [squareBB] 5 5).2.1 none squareBB circleOne
      (by decide) (by decide) (by decide)⟩


theorem circle_marker_round_trip (m : Marker) (hid : ∃ n, m.id = .inl n)
    (hx : json_number m.x = m.x) (hy : json_number m.y = m.y) :
    marker_from_record "circle" (Marker.to_record m) = some
      { kind := "circle", id := m.id, x := m.x, y := m.y,
        adjacent_squares := [], adjacent_circles := [] } := by
  obtain ⟨n, hn⟩ := hid
  rw [marker_from_record, Marker.to_record]
  dsimp only
  rw [if_pos rfl, hn, idInt, Option.map_some']
  rw [hx, hy]
  rfl

theorem square_marker_round_trip (m : Marker) (hid : ∃ s, m.id = .inr s ∧ pyUpper s = s)
    (hx : json_number m.x = m.x) (hy : json_number m.y = m.y) :
    marker_from_record "square" (Marker.to_record m) = some
      { kind := "square", id := m.id, x := m.x, y := m.y,
        adjacent_squares := [], adjacent_circles := [] } := by
  obtain ⟨s, hn, hup⟩ := hid
  rw [marker_from_record, Marker.to_record]
  dsimp only
  rw [if_neg (by decide), hn, idStr, hup]
  rw [hx, hy]
  rfl

theorem load_write_circles (circles : List Marker)
    (hc : ∀ m ∈ circles, m.kind = "circle" ∧ (∃ n, m.id = .inl n) ∧
        json_number m.x = m.x ∧ json_number m.y = m.y) :
    (load_markers (write_jsonl circles) "circle").map (fun m => (m.kind, m.id, m.x, m.y))
      = circles.map (fun m => (m.kind, m.id, m.x, m.y)) := by
  induction circles with
  | nil => rfl
  | cons m rest ih =>
    obtain ⟨hkind, hid, hx, hy⟩ := hc m (List.mem_cons_self _ _)
    rw [write_jsonl, List.map_cons, load_markers, List.filterMap_cons,
      circle_marker_round_trip m hid hx hy]
    rw [List.map_cons, List.map_cons]
    have hrest := ih (fun m' hm' => hc m' (List.mem_cons_of_mem _ hm'))
    rw [load_markers, write_jsonl] at hrest
    rw [hrest, hkind]

theorem load_write_squares (squares : List Marker)
    (hs : ∀ m ∈ squares, m.kind = "square" ∧ (∃ s, m.id = .inr s ∧ pyUpper s = s) ∧
        json_number m.x = m.x ∧ json_number m.y = m.y) :
    (load_markers (write_jsonl squares) "square").map (fun m => (m.kind, m.id, m.x, m.y))
      = squares.map (fun m => (m.kind, m.id, m.x, m.y)) := by
  induction squares with
  | nil => rfl
  | cons m rest ih =>
    obtain ⟨hkind, hid, hx, hy⟩ := hs m (List.mem_cons_self _ _)
    rw [write_jsonl, List.map_cons, load_markers, List.filterMap_cons,
      square_marker_round_trip m hid hx hy]
    rw [List.map_cons, List.map_cons]
    have hrest := ih (fun m' hm' => hs m' (List.mem_cons_of_mem _ hm'))
    rw [load_markers, write_jsonl] at hrest
    rw [hrest, hkind]

theorem load_connections_step_subset (acc : Finset (String × String)) (line : List String) :
    acc ⊆ load_connections_step acc line := by
  match line with
  | [] => exact Finset.Subset.refl acc
  | [a] => exact Finset.Subset.refl acc
  | a :: b :: c :: rest => exact Finset.Subset.refl acc
  | [a, b] =>
    rw [load_connections_step]
    cases hab : normalized_connection_pair a b with
    | none => exact Finset.Subset.refl acc
    | some pair => exact Finset.subset_insert pair acc

theorem mem_load_connections_step_strong {acc : Finset (String × String)}
    {line : List String} {p : String × String} (h : p ∈ load_connections_step acc line) :
    p ∈ acc ∨ ∃ a b, line = [a, b] ∧ normalized_connection_pair a b = some p := by
  match line with
  | [] => exact Or.inl h
  | [a] => exact Or.inl h
  | a :: b :: c :: rest => exact Or.inl h
  | [a, b] =>
    rw [load_connections_step] at h
    cases hab : normalized_connection_pair a b with
    | none => rw [hab] at h; exact Or.inl h
    | some pair =>
      rw [hab] at h
      rcases Finset.mem_insert.mp h with rfl | h
      · exact Or.inr ⟨a, b, rfl, hab⟩
      · exact Or.inl h

theorem mem_load_connections_go_strong {p : String × String} :
    ∀ (lines : List (List String)) (acc : Finset (String × String)),
      p ∈ lines.foldl load_connections_step acc →
      p ∈ acc ∨ ∃ a b, [a, b] ∈ lines ∧ normalized_connection_pair a b = some p := by
  intro lines
  induction lines with
  | nil => intro acc h; exact Or.inl h
  | cons line rest ih =>
    intro acc h
    rcases ih (load_connections_step acc line) h with h' | ⟨a, b, hline, hab⟩
    · rcases mem_load_connections_step_strong h' with h'' | ⟨a, b, rfl, hab⟩
      · exact Or.inl h''
      · exact Or.inr ⟨a, b, List.mem_cons_self _ _, hab⟩
    · exact Or.inr ⟨a, b, List.mem_cons_of_mem _ hline, hab⟩

theorem load_go_subset (lines : List (List String)) :
    ∀ acc : Finset (String × String), acc ⊆ lines.foldl load_connections_step acc := by
  induction lines with
  | nil => intro acc; exact Finset.Subset.refl acc
  | cons line rest ih =>
    intro acc
    exact (load_connections_step_subset acc line).trans (ih (load_connections_step acc line))

theorem load_go_of_line {p : String × String} {a b : String}
    (hab : normalized_connection_pair a b = some p) :
    ∀ (lines : List (List String)) (acc : Finset (String × String)), [a, b] ∈ lines →
      p ∈ lines.foldl load_connections_step acc := by
  intro lines
  induction lines with
  | nil => intro acc h; exact absurd h (List.not_mem_nil _)
  | cons line rest ih =>
    intro acc hmem
    rcases List.mem_cons.mp hmem with rfl | hmem
    · refine load_go_subset rest _ ?_
      rw [load_connections_step, hab]
      exact Finset.mem_insert_self p _
    · exact ih _ hmem

/-- C4 (amended): saving the circle list, the square list and the
connection set and reloading them gives back markers equal on kind, id, x
and y (adjacency caches excluded) and the same connection set — provided
every marker's coordinates are fixed points of the json-number rounding,
circle ids are ints, square ids are uppercase-fixed strings, kinds match
their list, and every stored pair is in canonical normalized form (all of
which hold for states produced by load+resync with already-rounded
coordinates).  Without the rounding hypothesis the round-trip fails — see
the counterexample. -/
theorem C4_save_load_round_trip (circles squares : List Marker)
    (conns : Finset (String × String))
    (hc : ∀ m ∈ circles, m.kind = "circle" ∧ (∃ n, m.id = .inl n) ∧
        json_number m.x = m.x ∧ json_number m.y = m.y)
    (hs : ∀ m ∈ squares, m.kind = "square" ∧ (∃ s, m.id = .inr s ∧ pyUpper s = s) ∧
        json_number m.x = m.x ∧ json_number m.y = m.y)
    (hcanon : ∀ p ∈ conns, normalized_connection_pair p.1 p.2 = some p) :
    (load_markers (write_jsonl circles) "circle").map (fun m => (m.kind, m.id, m.x, m.y))
        = circles.map (fun m => (m.kind, m.id, m.x, m.y)) ∧
    (load_markers (write_jsonl squares) "square").map (fun m => (m.kind, m.id, m.x, m.y))
        = squares.map (fun m => (m.kind, m.id, m.x, m.y)) ∧
    load_connections_list (write_connections conns) = conns := by
  refine ⟨load_write_circles circles hc, load_write_squares squares hs, ?_⟩
  apply Finset.ext
  intro p
  constructor
  · intro hp
    rcases mem_load_connections_go_strong (write_connections conns) ∅ hp with
      h' | ⟨a, b, hline, hab⟩
    · exact absurd h' (Finset.not_mem_empty p)
    · rw [write_connections] at hline
      obtain ⟨q, hq, heq⟩ := List.mem_map.mp hline
      have hq' : q ∈ conns := (Finset.mem_sort pairLe).mp hq
      obtain ⟨rfl, rfl⟩ : q.1 = a ∧ q.2 = b := by
        injection heq with h1 h2
        injection h2 with h2 _
        exact ⟨h1, h2⟩
      rw [hcanon q hq'] at hab
      obtain rfl : q = p := Option.some_inj.mp hab
      exact hq'
  · intro hp
    refine load_go_of_line (hcanon p hp) (write_connections conns) ∅ ?_
    rw [write_connections]
    exact List.mem_map.mpr ⟨p, (Finset.mem_sort pairLe).mpr hp, rfl⟩

/-- C4 counterexample: a circle at x = 0.1234 reloads at x = 0.123 —
`_json_number` rounds persisted coordinates to 3 decimals, so a state whose
coordinates are not already rounded does not round-trip. -/
theorem C4_counterexample :
    (load_markers (write_jsonl
        [{ kind := "circle", id := .inl 7, x := 1234/10000, y := 10 }]) "circle").map Marker.x
      = [(123/1000 : ℚ)] ∧ ((123/1000 : ℚ)) ≠ (1234/10000 : ℚ) := by
  exact ⟨by decide, by decide⟩

theorem C4_witness :
    (load_markers (write_jsonl [circleOne]) "circle").map (fun m => (m.kind, m.id, m.x, m.y))
        = [circleOne].map (fun m => (m.kind, m.id, m.x, m.y)) ∧
    (load_markers (write_jsonl [squareBB]) "square").map (fun m => (m.kind, m.id, m.x, m.y))
        = [squareBB].map (fun m => (m.kind, m.id, m.x, m.y)) ∧
    load_connections_list (write_connections {("1", "BB")}) = {("1", "BB")} :=
  C4_save_load_round_trip [circleOne] [squareBB] {("1", "BB")}
    (by
      intro m hm
      obtain rfl : m = circleOne := List.mem_singleton.mp hm
      exact ⟨rfl, ⟨1, rfl⟩, by decide, by decide⟩)
    (by
      intro m hm
      obtain rfl : m = squareBB := List.mem_singleton.mp hm
      exact ⟨rfl, ⟨"BB", rfl, by decide⟩, by decide, by decide⟩)
    (by decide)


end WMHelper
